import Mathlib

/-
Verification of the keyword-matching core of ai-powered-resume-analyser
(src/services/resume_processor.py, src/config/settings.py).

The Python code is embedded shallowly:

* Strings are Lean strings handled at the level of their character lists
  (an ASCII-faithful model of the Python text operations str.lower,
  str.strip, str.split, the regexes over \s and \w, and substring tests).
* Python sets of strings become Finset String.
* The one floating-point computation (calculate_match_score divides two
  list lengths and multiplies by 100 in IEEE binary64 arithmetic) is
  modelled exactly over the integers: a nonnegative binary64 value is a
  pair m * 2 ^ e, and each operation rounds its exact rational result to
  53 significant bits with round-to-nearest, ties-to-even, precisely as
  IEEE 754 prescribes.  Overflow and subnormals are ignored: they occur
  only for list lengths far beyond 2 ^ 1000, unreachable here.
-/

set_option maxRecDepth 8000

/-! ## Integer model of nonnegative IEEE binary64 arithmetic -/

/-- Fuel-driven floor of log2 (structural recursion so that the kernel can
evaluate it): log2fuel f n computes the largest k with 2 ^ k ≤ n, provided
f ≥ that k and n ≥ 1. -/
def log2fuel : ℕ → ℕ → ℕ
  | 0, _ => 0
  | f+1, n => if 2 ≤ n then log2fuel f (n / 2) + 1 else 0

/-- Largest k with 2 ^ k ≤ n (for n ≥ 1). -/
def nlog2 (n : ℕ) : ℕ := log2fuel n n

/-- Smallest k with m ≤ 2 ^ k (for m ≥ 1). -/
def nclog2 (m : ℕ) : ℕ := if m ≤ 1 then 0 else nlog2 (m - 1) + 1

/-- Nearest integer to p / q (q > 0), ties to even: the IEEE rounding of a
nonnegative rational at integer granularity. -/
def rneDiv (p q : ℕ) : ℕ :=
  let n := p / q
  let r := p % q
  if 2 * r < q then n else if q < 2 * r then n + 1 else if n % 2 = 0 then n else n + 1

/-- Floor of log2 (a / b) for a, b ≥ 1, as an integer.  For a ≥ b this is
the floor log2 of the integer quotient; for a < b it is minus the ceiling
log2 of the ceiling of b / a. -/
def floorLog2Frac (a b : ℕ) : ℤ :=
  if b ≤ a then (nlog2 (a / b) : ℤ)
  else -(nclog2 ((b + a - 1) / a) : ℤ)

/-- A nonnegative binary64 value, exactly: the rational m * 2 ^ e.
Produced values have m = 0 or 2 ^ 52 ≤ m ≤ 2 ^ 53. -/
structure F64 where
  m : ℕ
  e : ℤ

/-- Binary64 division of the Python integers a / b (b > 0): the exact
rational a / b rounded to 53 significant bits, round-to-nearest ties-to-even.
The target exponent e places the significand in [2 ^ 52, 2 ^ 53); the scaled
quotient is then rounded at integer granularity by rneDiv. -/
def fdiv (a b : ℕ) : F64 :=
  if a = 0 then ⟨0, 0⟩
  else
    let e : ℤ := floorLog2Frac a b - 52
    if 0 ≤ e then ⟨rneDiv a (b * 2 ^ e.toNat), e⟩
    else ⟨rneDiv (a * 2 ^ (-e).toNat) b, e⟩

/-- Binary64 multiplication of a nonnegative binary64 value by a small
Python integer k (k < 2 ^ 53, so float(k) is exact): the exact product
m * k * 2 ^ e rounded back to 53 significant bits. -/
def fmulNat (x : F64) (k : ℕ) : F64 :=
  let p := x.m * k
  if p = 0 then ⟨0, 0⟩
  else if nlog2 p ≤ 52 then ⟨p, x.e⟩
  else ⟨rneDiv p (2 ^ (nlog2 p - 52)), x.e + (nlog2 p - 52)⟩

/-- Python int(x) on a nonnegative binary64 value: truncation toward zero,
which for nonnegative values is the floor of m * 2 ^ e. -/
def truncF (x : F64) : ℕ :=
  if 0 ≤ x.e then x.m * 2 ^ x.e.toNat else x.m / 2 ^ (-x.e).toNat

/-! ## ResumeProcessor.calculate_match_score
(src/services/resume_processor.py lines 170-185)

    if not total_job_keywords: return 0
    match_ratio = len(matched_keywords) / len(total_job_keywords)
    return min(100, int(match_ratio * 100))

The division of the two lengths and the multiplication by 100 are binary64
operations; int truncates.  The result is a nonnegative Python int. -/

def calculate_match_score (matched_keywords total_job_keywords : List String) : ℕ :=
  if total_job_keywords.length = 0 then 0
  else
    let match_ratio := fdiv matched_keywords.length total_job_keywords.length
    min 100 (truncF (fmulNat match_ratio 100))

/-- The string of n letters a: used to build concrete keyword lists of
prescribed sizes with pairwise distinct elements. -/
def strN (n : ℕ) : String := String.mk (List.replicate n 'a')

/-- n pairwise distinct keywords. -/
def kwList (n : ℕ) : List String := (List.range n).map strN

/-! ## Character-level model of the Python text primitives -/

/-- ASCII whitespace, as matched by the regex class \s and stripped by
str.strip (space, tab, newline, carriage return, vertical tab, form feed). -/
def isSpacePy (c : Char) : Bool :=
  c == ' ' || c == '\t' || c == '\n' || c == '\r' || c == '\x0b' || c == '\x0c'

/-- str.strip(): drop leading and trailing whitespace. -/
def stripL (l : List Char) : List Char :=
  ((l.dropWhile isSpacePy).reverse.dropWhile isSpacePy).reverse

/-- str.strip() on strings. -/
def pyStrip (s : String) : String := String.mk (stripL s.data)

/-- str.lower(), ASCII model: Char.toLower maps A-Z to a-z and fixes
everything else. -/
def pyLower (s : String) : String := String.mk (s.data.map Char.toLower)

/-- re.sub of one space for every maximal whitespace run: each run of
consecutive whitespace characters becomes a single space, other characters
are kept.  Structural recursion with one character of lookahead: inside a
run nothing is emitted until the last whitespace character of the run. -/
def subWs : List Char → List Char
  | [] => []
  | [c] => if isSpacePy c then [' '] else [c]
  | c :: d :: t =>
    if isSpacePy c then (if isSpacePy d then subWs (d :: t) else ' ' :: subWs (d :: t))
    else c :: subWs (d :: t)

/-- The regex class \w (ASCII model): alphanumeric or underscore. -/
def isWordPy (c : Char) : Bool := c.isAlphanum || c == '_'

/-- A character kept by clean_text: the complement of the character class
of the regex sub that replaces specials, namely \w, \s and the punctuation
allow-list - . , ; : ! ? . -/
def allowedPy (c : Char) : Bool :=
  isWordPy c || isSpacePy c || c == '-' || c == '.' || c == ',' || c == ';' ||
    c == ':' || c == '!' || c == '?'

/-- re.sub replacing every character outside allowedPy with one space. -/
def replaceSpecial (l : List Char) : List Char :=
  l.map (fun c => if allowedPy c then c else ' ')

/-! ## ResumeProcessor.clean_text
(src/services/resume_processor.py lines 39-58)

    if not text: return ""
    text = re.sub(whitespace-run, single space, text.strip())
    text = re.sub(non-allowed character, single space, text)
    return text
-/

def clean_text (text : String) : String :=
  if text = "" then ""
  else String.mk (replaceSpecial (subWs (stripL text.data)))

/-- clean_text including the Python None input (the falsy test at the top
of clean_text also catches None). -/
def clean_textOpt : Option String → String
  | none => ""
  | some s => clean_text s

/-- Accumulator for wordsOf: cur holds the characters of the word in
progress, most recent first; a whitespace character closes it. -/
def wordsAux : List Char → List Char → List (List Char)
  | [], cur => if cur = [] then [] else [cur.reverse]
  | c :: t, cur =>
    if isSpacePy c then (if cur = [] then wordsAux t [] else cur.reverse :: wordsAux t [])
    else wordsAux t (c :: cur)

/-- Maximal whitespace-free runs of a character list, in order: the words
of Python str.split() with no arguments. -/
def wordsOf (l : List Char) : List (List Char) := wordsAux l []

/-- Join words with single spaces. -/
def joinWords : List (List Char) → List Char
  | [] => []
  | [w] => w
  | w :: w2 :: ws => w ++ ' ' :: joinWords (w2 :: ws)

/-- Collapse every whitespace run to one space and trim the ends: the
composite effect, written spec-side as split-into-words then join with
single spaces. -/
def collapseAndTrim (l : List Char) : List Char := joinWords (wordsOf l)

/-- The allowed-character set exactly as the specification claim words it:
alphanumeric, whitespace, or one of - . , ; : ! ? (no underscore). -/
def claimAllowed (c : Char) : Bool :=
  c.isAlphanum || isSpacePy c || c == '-' || c == '.' || c == ',' || c == ';' ||
    c == ':' || c == '!' || c == '?'

/-- The normalizer exactly as the specification claim describes it:
collapse whitespace runs, trim, then replace each character outside
claimAllowed with a single space. -/
def normalizeClaim (s : String) : String :=
  String.mk ((collapseAndTrim s.data).map (fun c => if claimAllowed c then c else ' '))

/-- The amended normalizer specification: as normalizeClaim, with the
underscore added to the allowed set (the source regex uses \w, which keeps
underscores). -/
def normalizeAmended : Option String → String
  | none => ""
  | some s =>
      String.mk ((collapseAndTrim s.data).map
        (fun c => if claimAllowed c || c == '_' then c else ' '))

/-! ## Substring test: the Python expression a in b -/

/-- Whether the first list is an initial run of the second. -/
def leadEq : List Char → List Char → Bool
  | [], _ => true
  | _ :: _, [] => false
  | a :: as, b :: bs => a == b && leadEq as bs

/-- Whether n occurs contiguously inside h. -/
def occursL (n : List Char) : List Char → Bool
  | [] => leadEq n []
  | c :: t => leadEq n (c :: t) || occursL n t

/-- The Python membership test needle in hay on strings. -/
def pyIn (needle hay : String) : Bool := occursL needle.data hay.data

/-! ## ResumeProcessor.skill_synonyms and _are_synonyms
(src/services/resume_processor.py lines 26-37 and 152-168) -/

/-- The static synonym table, in source order (a dict of lists in Python). -/
def skill_synonyms : List (String × List String) :=
  [("javascript", ["js", "javascript", "ecmascript"]),
   ("python", ["python", "py"]),
   ("artificial intelligence", ["ai", "artificial intelligence", "machine learning", "ml"]),
   ("machine learning", ["ml", "machine learning", "artificial intelligence", "ai"]),
   ("database", ["db", "database", "databases"]),
   ("leadership", ["leadership", "lead", "leading", "manage", "management"]),
   ("communication", ["communication", "communicate", "communicating"]),
   ("project management", ["project management", "pm", "project manager"]),
   ("software development", ["software development", "development", "programming"]),
   ("web development", ["web development", "web dev", "frontend", "backend"])]

/-- _are_synonyms: equality, then joint membership in one synonym class,
then the substring fallback for tokens longer than 3 characters. -/
def are_synonyms (word1 word2 : String) : Bool :=
  if word1 == word2 then true
  else if skill_synonyms.any (fun kv => kv.2.contains word1 && kv.2.contains word2) then true
  else if 3 < word1.length && 3 < word2.length && (pyIn word1 word2 || pyIn word2 word1) then
    true
  else false

/-! ## ResumeProcessor.match_keywords
(src/services/resume_processor.py lines 112-150) -/

/-- The per-keyword normalization kw.lower().strip() applied when the two
keyword lists are turned into sets. -/
def normKw (kw : String) : String := pyStrip (pyLower kw)

/-- The dictionary returned by match_keywords (the Python keys are
matched, missing, exact_matches and the synonym-matched key, spelled in the
source with the prefix partial_). -/
structure MatchResult where
  matched : Finset String
  missing : Finset String
  exact_matches : Finset String
  synonym_matched : Finset String

/-- match_keywords: normalize both lists into sets, intersect for the exact
matches, scan the remaining job keywords for a synonym among the resume
keywords (the for-loop with break is existence), union and subtract. -/
def match_keywords (resume_keywords job_keywords : List String) : MatchResult :=
  let resume_set : Finset String := (resume_keywords.map normKw).toFinset
  let job_set : Finset String := (job_keywords.map normKw).toFinset
  let exact_matches := resume_set ∩ job_set
  let syn_matches :=
    job_set.filter (fun j => j ∉ exact_matches ∧ ∃ r ∈ resume_set, are_synonyms j r = true)
  let matched := exact_matches ∪ syn_matches
  { matched := matched
    missing := job_set \ matched
    exact_matches := exact_matches
    synonym_matched := syn_matches }

/-! ## ResumeProcessor.analyze_resume_sections
(src/services/resume_processor.py lines 187-238) -/

/-- The eight header patterns of analyze_resume_sections, in source order.
Each regex is an unanchored alternation of literals searched inside the
lowercased line, so it matches exactly when one of the listed base literals
occurs as a substring.  An optional trailing s? in the source regex is
dropped here: for an unanchored search the optional final letter is
redundant (certifications contains certification, and so on); note that
the source pattern credentials has no optional s, so only the plural
matches. -/
def section_patterns : List (String × List String) :=
  [("contact", ["contact", "personal", "address", "phone", "email"]),
   ("summary", ["summary", "profile", "objective", "about"]),
   ("experience", ["experience", "employment", "work", "career", "professional"]),
   ("education", ["education", "academic", "degree", "university", "college"]),
   ("skills", ["skills", "technical", "competencies", "abilities"]),
   ("certifications", ["certification", "license", "credentials"]),
   ("projects", ["project", "portfolio"]),
   ("achievements", ["achievement", "award", "honor", "accomplishment"])]

/-- len(line.split()): the number of whitespace-separated words. -/
def wordCountPy (s : String) : ℕ := (wordsOf s.data).length

/-- The header scan of the loop body: the first section in source order
whose pattern occurs in the lowercased line, provided the line has at most
3 words; none when the line is not a header. -/
def findHeader (line : String) : Option String :=
  let lineLower := pyLower line
  section_patterns.findSome? (fun p =>
    if p.2.any (fun k => pyIn k lineLower) && wordCountPy line ≤ 3 then some p.1 else none)

/-- Append one line to the bucket of one section, leaving the other
buckets unchanged. -/
def appendTo (m : List (String × List String)) (key line : String) :
    List (String × List String) :=
  m.map (fun kv => if kv.1 = key then (kv.1, kv.2 ++ [line]) else kv)

/-- section_content as initialized: one empty bucket per pattern plus the
bucket other. -/
def initContent : List (String × List String) :=
  section_patterns.map (fun p => (p.1, [])) ++ [("other", [])]

/-- One iteration of the line loop: strip the line, skip it when empty,
switch the current section on a header line (appending it nowhere), and
otherwise append the stripped line to the current section. -/
def processLine (st : String × List (String × List String)) (rawLine : String) :
    String × List (String × List String) :=
  let line := pyStrip rawLine
  if line = "" then st
  else
    match findHeader line with
    | some sec => (sec, st.2)
    | none => (st.1, appendTo st.2 st.1 line)

/-- str.split of a newline: cut at every newline character, keeping empty
pieces. -/
def splitNlL : List Char → List (List Char)
  | [] => [[]]
  | c :: t =>
    if c = '\n' then [] :: splitNlL t
    else
      match splitNlL t with
      | [] => [[c]]
      | h :: r => (c :: h) :: r

/-- resume_text.split of a newline, on strings. -/
def pySplitLines (s : String) : List String := (splitNlL s.data).map String.mk

/-- The join of a bucket with newlines. -/
def joinNl : List String → String
  | [] => ""
  | [s] => s
  | s :: t :: r => s ++ "\n" ++ joinNl (t :: r)

/-- analyze_resume_sections: fold the line state machine over the lines,
starting in section other with all nine buckets empty, then join every
bucket with newlines. -/
def analyze_resume_sections (resume_text : String) : List (String × String) :=
  ((pySplitLines resume_text).foldl processLine ("other", initContent)).2.map
    (fun kv => (kv.1, joinNl kv.2))

/-! ## ANALYSIS_CONFIG scoring thresholds and the tier of a score
(src/config/settings.py lines 100-105) -/

/-- The recognized scoring options of the analysis configuration. -/
structure ScoringConfig where
  excellent_threshold : ℕ
  good_threshold : ℕ
  fair_threshold : ℕ

/-- ANALYSIS_CONFIG scoring: excellent_threshold 85, good_threshold 70,
fair_threshold 50. -/
def ANALYSIS_CONFIG_scoring : ScoringConfig :=
  { excellent_threshold := 85, good_threshold := 70, fair_threshold := 50 }

/-- Modelled from the spec: the tier-derivation step of the score
operation.  No code in src computes a tier label; only its threshold
declarations exist (ANALYSIS_CONFIG scoring in src/config/settings.py) and
the percent computation (calculate_match_score).  Per the spec, the tier is
excellent at or above the excellent threshold, good at or above the good
threshold, fair at or above the fair threshold, and poor below, with the
thresholds taken from the configuration rather than hard-coded. -/
def tier_label (cfg : ScoringConfig) (percent : ℕ) : String :=
  if cfg.excellent_threshold ≤ percent then "excellent"
  else if cfg.good_threshold ≤ percent then "good"
  else if cfg.fair_threshold ≤ percent then "fair"
  else "poor"

/-- Modelled from the spec: the score operation returning the percent
together with its tier label, thresholds read from the configuration. -/
def score_with_tier (cfg : ScoringConfig) (matched target : List String) : ℕ × String :=
  let p := calculate_match_score matched target
  (p, tier_label cfg p)

/-! ## Helper lemmas -/

theorem fdiv_self (n : ℕ) (hn : n ≠ 0) : fdiv n n = ⟨2 ^ 52, -52⟩ := by
  have hpos : 0 < n := Nat.pos_of_ne_zero hn
  have hdiv : n / n = 1 := Nat.div_self hpos
  have hlog : floorLog2Frac n n = 0 := by
    simp [floorLog2Frac, hdiv, nlog2, log2fuel]
  have hq : n * 2 ^ 52 / n = 2 ^ 52 := Nat.mul_div_cancel_left _ hpos
  have hr : n * 2 ^ 52 % n = 0 := Nat.mul_mod_right n _
  simp only [fdiv, hn, if_false, hlog]
  norm_num [rneDiv, hq, hr, hpos]
  decide

theorem calculate_match_score_le_100 (ms ts : List String) :
    calculate_match_score ms ts ≤ 100 := by
  unfold calculate_match_score
  split
  · exact Nat.zero_le _
  · exact Nat.min_le_left _ _

theorem calculate_match_score_empty_target (ms : List String) :
    calculate_match_score ms [] = 0 := by
  simp [calculate_match_score]

theorem calculate_match_score_empty_matched (ts : List String) :
    calculate_match_score [] ts = 0 := by
  unfold calculate_match_score
  split
  · rfl
  · simp [fdiv, fmulNat, truncF]

theorem calculate_match_score_full (ms ts : List String)
    (hlen : ms.length = ts.length) (hne : ts ≠ []) :
    calculate_match_score ms ts = 100 := by
  have htne : ts.length ≠ 0 := by
    simpa using hne
  unfold calculate_match_score
  rw [if_neg htne, hlen, fdiv_self _ htne]
  decide


/-! ## The claims -/

/-- C1, counterexample.  A matched set of 29 keywords inside a target set
of 100 keywords: the claimed exact value floor of 29 / 100 * 100 is 29, but
calculate_match_score returns 28, because the binary64 value of 29 / 100
is slightly below 29 / 100 and multiplying it by 100 lands just under 29,
which int then truncates to 28. -/
theorem C1_floor_counterexample :
    kwList 29 ⊆ kwList 100 ∧ (kwList 29).Nodup ∧ (kwList 100).Nodup ∧
      (kwList 29).length = 29 ∧ (kwList 100).length = 100 ∧
      calculate_match_score (kwList 29) (kwList 100) = 28 ∧
      (kwList 29).length * 100 / (kwList 100).length = 29 ∧
      calculate_match_score (kwList 29) (kwList 100) ≠
        min 100 ((kwList 29).length * 100 / (kwList 100).length) := by
  refine ⟨by decide, by decide, by decide, by decide, by decide, by decide, by decide,
    by decide⟩

/-- C1, amended.  The score calculator returns 0 on an empty target list
and 0 on an empty matched list, always returns a natural number at most
100 (so the result is an integer in [0, 100] and no input raises), and
returns exactly 100 when the matched and target lists have equal nonzero
length; the generic value is min(100, int(float(m / t) * 100)) computed in
binary64 arithmetic, which can fall one short of the exact
floor(m / t * 100). -/
theorem C1_score_range (ms ts : List String) :
    (ts = [] → calculate_match_score ms ts = 0) ∧
      (ms = [] → calculate_match_score ms ts = 0) ∧
      calculate_match_score ms ts ≤ 100 ∧
      (ms.length = ts.length → ts ≠ [] → calculate_match_score ms ts = 100) := by
  refine ⟨?_, ?_, calculate_match_score_le_100 ms ts, ?_⟩
  · rintro rfl
    exact calculate_match_score_empty_target ms
  · rintro rfl
    exact calculate_match_score_empty_matched ts
  · intro hlen hne
    exact calculate_match_score_full ms ts hlen hne

/-- C1, witness for the amended theorem at concrete inputs: a two-element
list against itself scores 100, and the empty target scores 0. -/
theorem C1_score_range_witness :
    calculate_match_score ["python", "sql"] ["python", "sql"] = 100 ∧
      calculate_match_score ["python"] [] = 0 := by
  refine ⟨(C1_score_range ["python", "sql"] ["python", "sql"]).2.2.2 rfl (by decide), ?_⟩
  exact (C1_score_range ["python"] []).1 rfl

/-- C2.  The score operation (the percent from calculate_match_score paired
with the spec-modelled tier of that percent) returns the percent unchanged,
labels it excellent exactly when it is at least 85, good exactly when it is
in [70, 85), fair exactly when it is in [50, 70) and poor exactly when it
is below 50 under the thresholds of ANALYSIS_CONFIG, and reads the three
thresholds from the configuration argument rather than from constants. -/
theorem C2_tier_of_score (matched target : List String) :
    ((score_with_tier ANALYSIS_CONFIG_scoring matched target).1 =
        calculate_match_score matched target) ∧
      ((score_with_tier ANALYSIS_CONFIG_scoring matched target).2 = "excellent" ↔
        85 ≤ calculate_match_score matched target) ∧
      ((score_with_tier ANALYSIS_CONFIG_scoring matched target).2 = "good" ↔
        70 ≤ calculate_match_score matched target ∧
          calculate_match_score matched target < 85) ∧
      ((score_with_tier ANALYSIS_CONFIG_scoring matched target).2 = "fair" ↔
        50 ≤ calculate_match_score matched target ∧
          calculate_match_score matched target < 70) ∧
      ((score_with_tier ANALYSIS_CONFIG_scoring matched target).2 = "poor" ↔
        calculate_match_score matched target < 50) ∧
      ∀ cfg : ScoringConfig,
        (score_with_tier cfg matched target).2 =
          tier_label cfg (calculate_match_score matched target) := by
  set p := calculate_match_score matched target with hp
  have h1 : (score_with_tier ANALYSIS_CONFIG_scoring matched target).2 =
      tier_label ANALYSIS_CONFIG_scoring p := rfl
  refine ⟨rfl, ?_, ?_, ?_, ?_, fun cfg => rfl⟩ <;>
    rw [h1] <;> unfold tier_label <;> unfold ANALYSIS_CONFIG_scoring <;>
    dsimp only <;> split_ifs with h85 h70 h50 <;>
    simp_all <;> omega


theorem are_synonyms_iff (a b : String) :
    are_synonyms a b = true ↔
      a = b ∨ (∃ kv ∈ skill_synonyms, a ∈ kv.2 ∧ b ∈ kv.2) ∨
        (3 < a.length ∧ 3 < b.length ∧ (pyIn a b = true ∨ pyIn b a = true)) := by
  unfold are_synonyms
  split_ifs with h1 h2 h3 <;> simp_all [List.any_eq_true]
  tauto

theorem are_synonyms_symm (a b : String) : are_synonyms a b = are_synonyms b a := by
  have key : ∀ x y : String, are_synonyms x y = true → are_synonyms y x = true := by
    intro x y h
    rw [are_synonyms_iff] at h ⊢
    rcases h with h | ⟨kv, hkv, h1, h2⟩ | ⟨l1, l2, h⟩
    · exact Or.inl h.symm
    · exact Or.inr (Or.inl ⟨kv, hkv, h2, h1⟩)
    · exact Or.inr (Or.inr ⟨l2, l1, h.symm⟩)
  cases hab : are_synonyms a b with
  | true => exact (key a b hab).symm
  | false =>
    cases hba : are_synonyms b a with
    | true =>
      have h := key b a hba
      rw [hab] at h
      exact absurd h Bool.false_ne_true
    | false => rfl

/-- C4.  are_synonyms holds exactly when the two tokens are equal, or both
lie in one class of the static synonym table, or both are longer than 3
characters and one is a substring of the other; and on the quoted examples:
python and py match (by the table), python and java do not, and management
and management systems match by the substring rule alone (they share no
synonym class). -/
theorem C4_synonym_rules :
    (∀ a b : String, are_synonyms a b = true ↔
        a = b ∨ (∃ kv ∈ skill_synonyms, a ∈ kv.2 ∧ b ∈ kv.2) ∨
          (3 < a.length ∧ 3 < b.length ∧ (pyIn a b = true ∨ pyIn b a = true))) ∧
      are_synonyms "python" "py" = true ∧
      are_synonyms "python" "java" = false ∧
      are_synonyms "management" "management systems" = true ∧
      ¬(∃ kv ∈ skill_synonyms, "management" ∈ kv.2 ∧ "management systems" ∈ kv.2) ∧
      pyIn "management" "management systems" = true :=
  ⟨are_synonyms_iff, by decide, by decide, by decide, by decide, by decide⟩

/-- C7.  are_synonyms is symmetric in its two arguments, and joint
membership of two tokens in one class of the table makes them synonyms in
both argument orders, for every such pair. -/
theorem C7_synonym_symmetry :
    (∀ a b : String, are_synonyms a b = are_synonyms b a) ∧
      ∀ a b : String, (∃ kv ∈ skill_synonyms, a ∈ kv.2 ∧ b ∈ kv.2) →
        are_synonyms a b = true ∧ are_synonyms b a = true := by
  refine ⟨are_synonyms_symm, fun a b h => ?_⟩
  have h1 : are_synonyms a b = true := (are_synonyms_iff a b).mpr (Or.inr (Or.inl h))
  refine ⟨h1, ?_⟩
  rw [← are_synonyms_symm a b]
  exact h1

/-- C7, witness: ai and ml sit in one synonym class without being an
explicitly adjacent pair, and match in both orders. -/
theorem C7_synonym_symmetry_witness :
    are_synonyms "ai" "ml" = true ∧ are_synonyms "ml" "ai" = true :=
  C7_synonym_symmetry.2 "ai" "ml" (by decide)

/-- C3.  For every pair of keyword lists, writing R and J for the candidate
and target sets obtained by per-keyword normalization, the partition
returned by match_keywords satisfies: exact_matches is R ∩ J, the
synonym-matched set holds exactly the members of J outside exact_matches
with a synonym in R, matched is their union, missing is J minus matched,
and hence matched and missing are disjoint and cover J. -/
theorem C3_partition_invariants (rks jks : List String) :
    (match_keywords rks jks).exact_matches =
        (rks.map normKw).toFinset ∩ (jks.map normKw).toFinset ∧
      (∀ x, x ∈ (match_keywords rks jks).synonym_matched ↔
        x ∈ (jks.map normKw).toFinset ∧ x ∉ (match_keywords rks jks).exact_matches ∧
          ∃ r ∈ (rks.map normKw).toFinset, are_synonyms x r = true) ∧
      (match_keywords rks jks).matched =
        (match_keywords rks jks).exact_matches ∪
          (match_keywords rks jks).synonym_matched ∧
      (match_keywords rks jks).missing =
        (jks.map normKw).toFinset \ (match_keywords rks jks).matched ∧
      (match_keywords rks jks).matched ∩ (match_keywords rks jks).missing = ∅ ∧
      (match_keywords rks jks).matched ∪ (match_keywords rks jks).missing =
        (jks.map normKw).toFinset := by
  refine ⟨rfl, ?_, rfl, rfl, ?_, ?_⟩
  · intro x
    simp [match_keywords, Finset.mem_filter, and_assoc]
  · exact Finset.inter_sdiff_self _ _
  · apply Finset.union_sdiff_of_subset
    apply Finset.union_subset
    · exact Finset.inter_subset_right
    · exact Finset.filter_subset _ _

/-- C3, witness: the invariants at a concrete pair of keyword lists. -/
theorem C3_partition_invariants_witness :
    (match_keywords ["python"] ["python", "java"]).matched ∩
        (match_keywords ["python"] ["python", "java"]).missing = ∅ ∧
      (match_keywords ["python"] ["python", "java"]).matched ∪
        (match_keywords ["python"] ["python", "java"]).missing =
          ((["python", "java"] : List String).map normKw).toFinset :=
  ⟨(C3_partition_invariants ["python"] ["python", "java"]).2.2.2.2.1,
   (C3_partition_invariants ["python"] ["python", "java"]).2.2.2.2.2⟩

/-- C8.  Self-match is total: for every keyword list of already normalized
tokens, matching it against itself matches everything and misses nothing. -/
theorem C8_self_match (A : List String) (h : ∀ a ∈ A, normKw a = a) :
    (match_keywords A A).matched = A.toFinset ∧ (match_keywords A A).missing = ∅ := by
  have hmap : A.map normKw = A := by
    rw [List.map_congr_left h]
    exact List.map_id A
  have hfil :
      (A.toFinset.filter (fun j => j ∉ A.toFinset ∩ A.toFinset ∧
        ∃ r ∈ A.toFinset, are_synonyms j r = true)) = ∅ := by
    rw [Finset.filter_eq_empty_iff]
    intro j hj
    simp [hj]
  have hm : (match_keywords A A).matched = A.toFinset := by
    simp only [match_keywords, hmap, Finset.inter_self] at hfil ⊢
    rw [hfil, Finset.union_empty]
  refine ⟨hm, ?_⟩
  show (A.map normKw).toFinset \ (match_keywords A A).matched = ∅
  rw [hmap, hm, Finset.sdiff_self]

/-- C8, witness: a concrete normalized keyword list matched against
itself. -/
theorem C8_self_match_witness :
    (match_keywords ["python", "sql"] ["python", "sql"]).matched =
        (["python", "sql"] : List String).toFinset ∧
      (match_keywords ["python", "sql"] ["python", "sql"]).missing = ∅ :=
  C8_self_match ["python", "sql"] (by decide)

theorem findHeader_some (line lbl : String) (h : findHeader line = some lbl) :
    wordCountPy line ≤ 3 ∧
      ∃ kws, (lbl, kws) ∈ section_patterns ∧ ∃ k ∈ kws, pyIn k (pyLower line) = true := by
  unfold findHeader at h
  obtain ⟨p, hp, hsome⟩ := List.exists_of_findSome?_eq_some h
  by_cases hc : (p.2.any (fun k => pyIn k (pyLower line)) && decide (wordCountPy line ≤ 3)) = true
  · rw [if_pos hc] at hsome
    rw [Bool.and_eq_true, List.any_eq_true, decide_eq_true_eq] at hc
    obtain ⟨⟨k, hk, hkin⟩, hwc⟩ := hc
    obtain rfl : p.1 = lbl := by simpa using hsome
    exact ⟨hwc, p.2, hp, k, hk, hkin⟩
  · rw [if_neg hc] at hsome
    exact absurd hsome (by simp)

theorem findHeader_of_match (line : String)
    (h : wordCountPy line ≤ 3 ∧
      ∃ p ∈ section_patterns, ∃ k ∈ p.2, pyIn k (pyLower line) = true) :
    findHeader line ≠ none := by
  obtain ⟨hwc, p, hp, k, hk, hkin⟩ := h
  intro hnone
  unfold findHeader at hnone
  rw [List.findSome?_eq_none_iff] at hnone
  have := hnone p hp
  rw [if_pos] at this
  · exact absurd this (by simp)
  · rw [Bool.and_eq_true, List.any_eq_true, decide_eq_true_eq]
    exact ⟨⟨k, hk, hkin⟩, hwc⟩

theorem appendTo_keys (m : List (String × List String)) (key line : String) :
    (appendTo m key line).map Prod.fst = m.map Prod.fst := by
  unfold appendTo
  rw [List.map_map]
  apply List.map_congr_left
  intro kv _
  by_cases h : kv.1 = key <;> simp [h]

theorem processLine_keys (st : String × List (String × List String)) (line : String) :
    (processLine st line).2.map Prod.fst = st.2.map Prod.fst := by
  unfold processLine
  by_cases h : pyStrip line = ""
  · simp [h]
  · cases hf : findHeader (pyStrip line) with
    | none => simp [h, hf, appendTo_keys]
    | some sec => simp [h, hf]

theorem foldl_processLine_keys (lines : List String)
    (st : String × List (String × List String)) :
    ((lines.foldl processLine st).2).map Prod.fst = st.2.map Prod.fst := by
  induction lines generalizing st with
  | nil => rfl
  | cons l ls ih => rw [List.foldl_cons, ih, processLine_keys]

/-- C9.  The section segmenter: on the quoted example the skills and
experience sections receive the expected lines; the machine starts in
section other; empty lines are skipped; a header line (at most 3 words,
one of the section keywords occurring in its lowercasing, first matching
section in source order) switches the current section and is appended to
no bucket; every other non-empty line is appended, stripped, to the
current section; and the header test holds exactly of such lines. -/
theorem C9_segmenter_machine :
    ((analyze_resume_sections "SKILLS\nPython, SQL\nEXPERIENCE\nDid stuff").lookup
        "skills" = some "Python, SQL") ∧
      ((analyze_resume_sections "SKILLS\nPython, SQL\nEXPERIENCE\nDid stuff").lookup
        "experience" = some "Did stuff") ∧
      ((analyze_resume_sections "Hello world").lookup "other" = some "Hello world") ∧
      (∀ (st : String × List (String × List String)) (line : String),
        pyStrip line = "" → processLine st line = st) ∧
      (∀ (st : String × List (String × List String)) (line lbl : String),
        findHeader (pyStrip line) = some lbl → processLine st line = (lbl, st.2)) ∧
      (∀ (st : String × List (String × List String)) (line : String),
        pyStrip line ≠ "" → findHeader (pyStrip line) = none →
          processLine st line = (st.1, appendTo st.2 st.1 (pyStrip line))) ∧
      (∀ line lbl : String, findHeader line = some lbl →
        wordCountPy line ≤ 3 ∧
          ∃ kws, (lbl, kws) ∈ section_patterns ∧ ∃ k ∈ kws, pyIn k (pyLower line) = true) ∧
      (∀ line : String,
        (wordCountPy line ≤ 3 ∧
          ∃ p ∈ section_patterns, ∃ k ∈ p.2, pyIn k (pyLower line) = true) →
        findHeader line ≠ none) := by
  refine ⟨by decide, by decide, by decide, ?_, ?_, ?_, findHeader_some, findHeader_of_match⟩
  · intro st line h
    simp [processLine, h]
  · intro st line lbl h
    have hne : ¬(pyStrip line = "") := by
      intro he
      rw [he] at h
      have hnone : findHeader "" = none := by decide
      rw [hnone] at h
      exact Option.noConfusion h
    simp [processLine, hne, h]
  · intro st line hne h
    simp [processLine, hne, h]

/-- C9, witness: the step function applied to concrete lines, a header, a
blank and a content line, from the initial state. -/
theorem C9_segmenter_machine_witness :
    processLine ("other", initContent) "SKILLS" = ("skills", initContent) ∧
      processLine ("skills", initContent) " " = ("skills", initContent) ∧
      processLine ("skills", initContent) "Python, SQL" =
        ("skills", appendTo initContent "skills" "Python, SQL") := by
  refine ⟨C9_segmenter_machine.2.2.2.2.1 ("other", initContent) "SKILLS" "skills"
    (by decide), C9_segmenter_machine.2.2.2.1 ("skills", initContent) " " (by decide), ?_⟩
  have h := C9_segmenter_machine.2.2.2.2.2.1 ("skills", initContent) "Python, SQL"
    (by decide) (by decide)
  simpa using h

/-- C10.  For every input the section segmenter returns exactly the nine
keys contact, summary, experience, education, skills, certifications,
projects, achievements and other, in that order; a section that received
no content line is present, mapped to the empty string (on the empty input
every section is the empty string, and on a two-line skills example every
other section is the empty string). -/
theorem C10_section_keys (text : String) :
    (analyze_resume_sections text).map Prod.fst =
        ["contact", "summary", "experience", "education", "skills", "certifications",
          "projects", "achievements", "other"] ∧
      (∀ p ∈ analyze_resume_sections "", p.2 = "") ∧
      (∀ p ∈ analyze_resume_sections "SKILLS\nPython, SQL",
        p.1 ≠ "skills" → p.2 = "") := by
  refine ⟨?_, by decide, by decide⟩
  unfold analyze_resume_sections
  rw [List.map_map]
  have hcomp : (Prod.fst ∘ fun kv : String × List String => (kv.1, joinNl kv.2)) =
      Prod.fst := rfl
  rw [hcomp, foldl_processLine_keys]
  decide

/-- C10, witness: the nine keys at one concrete input. -/
theorem C10_section_keys_witness :
    (analyze_resume_sections "Hello").map Prod.fst =
      ["contact", "summary", "experience", "education", "skills", "certifications",
        "projects", "achievements", "other"] :=
  (C10_section_keys "Hello").1

/-! ## Lemmas about the whitespace machinery of clean_text -/

theorem subWs_cons_of_not_space (c : Char) (l : List Char) (hc : isSpacePy c = false) :
    subWs (c :: l) = c :: subWs l := by
  cases l with
  | nil => simp [subWs, hc]
  | cons d t => simp [subWs, hc]

theorem subWs_word (w l : List Char) (hw : ∀ x ∈ w, isSpacePy x = false) :
    subWs (w ++ l) = w ++ subWs l := by
  induction w with
  | nil => rfl
  | cons c w ih =>
    rw [List.cons_append, subWs_cons_of_not_space c _ (hw c (by simp)),
      ih (fun x hx => hw x (by simp [hx])), List.cons_append]

theorem subWs_run_nil (r : List Char) (hr : ∀ x ∈ r, isSpacePy x = true) (hne : r ≠ []) :
    subWs r = [' '] := by
  induction r with
  | nil => exact absurd rfl hne
  | cons c r ih =>
    cases r with
    | nil => simp [subWs, hr c (by simp)]
    | cons d t =>
      have hc := hr c (by simp)
      have hd := hr d (by simp)
      rw [subWs, if_pos hc, if_pos hd]
      exact ih (fun x hx => hr x (by simp [hx])) (by simp)

theorem subWs_run_cons (r : List Char) (d : Char) (t : List Char)
    (hr : ∀ x ∈ r, isSpacePy x = true) (hne : r ≠ []) (hd : isSpacePy d = false) :
    subWs (r ++ d :: t) = ' ' :: subWs (d :: t) := by
  induction r with
  | nil => exact absurd rfl hne
  | cons c r ih =>
    have hc := hr c (by simp)
    cases r with
    | nil => simp [subWs, hc, hd]
    | cons c2 r2 =>
      have hc2 := hr c2 (by simp)
      rw [List.cons_append, List.cons_append, subWs, if_pos hc]
      rw [List.cons_append] at ih
      rw [if_pos hc2]
      exact ih (fun x hx => hr x (by simp [hx])) (by simp)


theorem wordsAux_all_space (t : List Char) (ht : ∀ x ∈ t, isSpacePy x = true) :
    ∀ cur : List Char, wordsAux t cur = if cur = [] then [] else [cur.reverse] := by
  induction t with
  | nil => intro cur; rfl
  | cons d t ih =>
    intro cur
    have hd := ht d (by simp)
    have ih0 := ih (fun x hx => ht x (by simp [hx])) []
    rw [wordsAux, if_pos hd]
    by_cases hcur : cur = []
    · simp [hcur, ih0]
    · simp [hcur, ih0]

theorem wordsAux_word (w : List Char) (hw : ∀ x ∈ w, isSpacePy x = false) :
    ∀ (l cur : List Char), wordsAux (w ++ l) cur = wordsAux l (w.reverse ++ cur) := by
  induction w with
  | nil => intro l cur; rfl
  | cons c w ih =>
    intro l cur
    have hc := hw c (by simp)
    rw [List.cons_append, wordsAux, if_neg (by simp [hc]),
      ih (fun x hx => hw x (by simp [hx])) l (c :: cur)]
    simp

theorem wordsOf_cons_space (c : Char) (l : List Char) (hc : isSpacePy c = true) :
    wordsOf (c :: l) = wordsOf l := by
  unfold wordsOf
  rw [wordsAux, if_pos hc]
  simp

theorem wordsOf_run (r l : List Char) (hr : ∀ x ∈ r, isSpacePy x = true) :
    wordsOf (r ++ l) = wordsOf l := by
  induction r with
  | nil => rfl
  | cons c r ih =>
    rw [List.cons_append, wordsOf_cons_space c _ (hr c (by simp))]
    exact ih (fun x hx => hr x (by simp [hx]))

theorem wordsAux_ne_nil (l : List Char) :
    ∀ cur : List Char, cur ≠ [] → wordsAux l cur ≠ [] := by
  induction l with
  | nil => intro cur hcur; simp [wordsAux, hcur]
  | cons c l ih =>
    intro cur hcur
    rw [wordsAux]
    by_cases hc : isSpacePy c
    · simp [hc, hcur]
    · rw [if_neg hc]
      exact ih (c :: cur) (by simp)

theorem wordsOf_ne_nil (c : Char) (t : List Char) (hc : isSpacePy c = false) :
    wordsOf (c :: t) ≠ [] := by
  unfold wordsOf
  rw [wordsAux, if_neg (by simp [hc])]
  exact wordsAux_ne_nil t [c] (by simp)

theorem wordsOf_word_nil (w : List Char) (hw : ∀ x ∈ w, isSpacePy x = false)
    (hne : w ≠ []) : wordsOf w = [w] := by
  unfold wordsOf
  have h := wordsAux_word w hw [] []
  rw [List.append_nil] at h
  rw [h, wordsAux]
  simp [hne]

theorem wordsOf_word_cons (w : List Char) (d : Char) (t : List Char)
    (hw : ∀ x ∈ w, isSpacePy x = false) (hne : w ≠ []) (hd : isSpacePy d = true) :
    wordsOf (w ++ d :: t) = w :: wordsOf (d :: t) := by
  unfold wordsOf
  rw [wordsAux_word w hw (d :: t) [], List.append_nil, wordsAux, if_pos hd,
    if_neg (by simp [hne]), wordsAux, if_pos hd]
  simp

theorem wordsAux_append_all_space (t : List Char) (ht : ∀ x ∈ t, isSpacePy x = true) :
    ∀ (l cur : List Char), wordsAux (l ++ t) cur = wordsAux l cur := by
  intro l
  induction l with
  | nil =>
    intro cur
    rw [List.nil_append, wordsAux_all_space t ht cur, wordsAux]
  | cons c l ih =>
    intro cur
    rw [List.cons_append, wordsAux, wordsAux]
    by_cases hc : isSpacePy c
    · by_cases hcur : cur = [] <;> simp [hc, hcur, ih]
    · rw [if_neg hc, if_neg hc]
      exact ih (c :: cur)

theorem wordsOf_append_run (l t : List Char) (ht : ∀ x ∈ t, isSpacePy x = true) :
    wordsOf (l ++ t) = wordsOf l :=
  wordsAux_append_all_space t ht l []

theorem mem_wordsAux (l : List Char) :
    ∀ cur : List Char, (∀ c ∈ cur, isSpacePy c = false) →
      ∀ w ∈ wordsAux l cur, w ≠ [] ∧ ∀ c ∈ w, isSpacePy c = false ∧ (c ∈ l ∨ c ∈ cur) := by
  induction l with
  | nil =>
    intro cur hcur w hw
    by_cases hc : cur = []
    · rw [wordsAux, if_pos hc] at hw
      exact absurd hw (by simp)
    · rw [wordsAux, if_neg hc] at hw
      simp only [List.mem_singleton] at hw
      subst hw
      refine ⟨by simp [hc], fun c hcmem => ?_⟩
      rw [List.mem_reverse] at hcmem
      exact ⟨hcur c hcmem, Or.inr hcmem⟩
  | cons a l ih =>
    intro cur hcur w hw
    rw [wordsAux] at hw
    by_cases ha : isSpacePy a
    · rw [if_pos ha] at hw
      by_cases hc : cur = []
      · rw [if_pos hc] at hw
        obtain ⟨h1, h2⟩ := ih [] (by simp) w hw
        refine ⟨h1, fun c hcm => ⟨(h2 c hcm).1, ?_⟩⟩
        rcases (h2 c hcm).2 with h | h
        · exact Or.inl (by simp [h])
        · exact absurd h (by simp)
      · rw [if_neg hc] at hw
        rcases List.mem_cons.mp hw with h | h
        · subst h
          refine ⟨by simp [hc], fun c hcm => ?_⟩
          rw [List.mem_reverse] at hcm
          exact ⟨hcur c hcm, Or.inr hcm⟩
        · obtain ⟨h1, h2⟩ := ih [] (by simp) w h
          refine ⟨h1, fun c hcm => ⟨(h2 c hcm).1, ?_⟩⟩
          rcases (h2 c hcm).2 with h3 | h3
          · exact Or.inl (by simp [h3])
          · exact absurd h3 (by simp)
    · rw [if_neg ha] at hw
      rw [Bool.not_eq_true] at ha
      obtain ⟨h1, h2⟩ := ih (a :: cur) (by
        intro c hc
        rcases List.mem_cons.mp hc with h | h
        · subst h; exact ha
        · exact hcur c h) w hw
      refine ⟨h1, fun c hcm => ⟨(h2 c hcm).1, ?_⟩⟩
      rcases (h2 c hcm).2 with h3 | h3
      · exact Or.inl (by simp [h3])
      · rcases List.mem_cons.mp h3 with h4 | h4
        · subst h4; exact Or.inl (by simp)
        · exact Or.inr h4

theorem mem_wordsOf (l : List Char) :
    ∀ w ∈ wordsOf l, w ≠ [] ∧ ∀ c ∈ w, isSpacePy c = false ∧ c ∈ l := by
  intro w hw
  obtain ⟨h1, h2⟩ := mem_wordsAux l [] (by simp) w hw
  refine ⟨h1, fun c hcm => ⟨(h2 c hcm).1, ?_⟩⟩
  rcases (h2 c hcm).2 with h | h
  · exact h
  · exact absurd h (by simp)

theorem wordsOf_joinWords (l : List (List Char))
    (h : ∀ w ∈ l, w ≠ [] ∧ ∀ c ∈ w, isSpacePy c = false) :
    wordsOf (joinWords l) = l := by
  induction l with
  | nil => rfl
  | cons w l2 ih =>
    cases l2 with
    | nil =>
      obtain ⟨hne, hnw⟩ := h w (by simp)
      simpa [joinWords] using wordsOf_word_nil w hnw hne
    | cons w2 l3 =>
      obtain ⟨hne, hnw⟩ := h w (by simp)
      rw [joinWords, wordsOf_word_cons w ' ' _ hnw hne (by decide),
        wordsOf_cons_space ' ' _ (by decide), ih (fun x hx => h x (by simp [hx]))]

theorem wordsOf_idem (l : List Char) :
    wordsOf (joinWords (wordsOf l)) = wordsOf l :=
  wordsOf_joinWords _ (fun w hw =>
    ⟨(mem_wordsOf l w hw).1, fun c hc => ((mem_wordsOf l w hw).2 c hc).1⟩)

theorem subWs_all_not_space (w : List Char) (hw : ∀ x ∈ w, isSpacePy x = false) :
    subWs w = w := by
  have h := subWs_word w [] hw
  rw [List.append_nil] at h
  rw [h, show subWs [] = [] from rfl, List.append_nil]

theorem dropWhile_head_not (p : Char → Bool) :
    ∀ (l : List Char) (c : Char) (t : List Char), l.dropWhile p = c :: t → p c = false := by
  intro l
  induction l with
  | nil => intro c t h; exact absurd h (by simp)
  | cons a l ih =>
    intro c t h
    rw [List.dropWhile_cons] at h
    by_cases ha : p a
    · rw [if_pos ha] at h
      exact ih c t h
    · rw [if_neg ha] at h
      cases h
      rw [Bool.not_eq_true] at ha
      exact ha

theorem subWs_eq_joinWords_stripped :
    ∀ (n : ℕ) (l : List Char), l.length ≤ n →
      (∀ c t, l = c :: t → isSpacePy c = false) →
      (∀ c t, l.reverse = c :: t → isSpacePy c = false) →
      subWs l = joinWords (wordsOf l) := by
  intro n
  induction n with
  | zero =>
    intro l hl _ _
    have hnil : l = [] := List.eq_nil_of_length_eq_zero (Nat.le_zero.mp hl)
    subst hnil
    rfl
  | succ n ih =>
    intro l hl hh ht
    cases l with
    | nil => rfl
    | cons c t0 =>
      have hc : isSpacePy c = false := hh c t0 rfl
      have hsplit : (c :: t0).takeWhile (fun x => !isSpacePy x) ++
          (c :: t0).dropWhile (fun x => !isSpacePy x) = c :: t0 :=
        List.takeWhile_append_dropWhile _ _
      have hwmem : ∀ x ∈ (c :: t0).takeWhile (fun x => !isSpacePy x), isSpacePy x = false := by
        intro x hx
        have := List.mem_takeWhile_imp hx
        simpa using this
      have hwne : (c :: t0).takeWhile (fun x => !isSpacePy x) ≠ [] := by
        rw [List.takeWhile_cons, if_pos (by simp [hc])]
        simp
      cases hr0 : (c :: t0).dropWhile (fun x => !isSpacePy x) with
      | nil =>
        rw [hr0, List.append_nil] at hsplit
        rw [← hsplit, subWs_all_not_space _ hwmem, wordsOf_word_nil _ hwmem hwne]
        rfl
      | cons d t1 =>
        have hd : isSpacePy d = true := by
          have := dropWhile_head_not _ (c :: t0) d t1 hr0
          simpa using this
        have hrunsplit : ((c :: t0).dropWhile (fun x => !isSpacePy x)).takeWhile isSpacePy ++
            ((c :: t0).dropWhile (fun x => !isSpacePy x)).dropWhile isSpacePy =
            (c :: t0).dropWhile (fun x => !isSpacePy x) :=
          List.takeWhile_append_dropWhile _ _
        have hrunmem : ∀ x ∈ ((c :: t0).dropWhile (fun x => !isSpacePy x)).takeWhile isSpacePy,
            isSpacePy x = true := by
          intro x hx
          exact List.mem_takeWhile_imp hx
        have hrunne : ((c :: t0).dropWhile (fun x => !isSpacePy x)).takeWhile isSpacePy ≠ [] := by
          rw [hr0, List.takeWhile_cons, if_pos hd]
          simp
        cases hr2 : ((c :: t0).dropWhile (fun x => !isSpacePy x)).dropWhile isSpacePy with
        | nil =>
          exfalso
          rw [hr2, List.append_nil] at hrunsplit
          have hrws : ∀ x ∈ (c :: t0).dropWhile (fun x => !isSpacePy x), isSpacePy x = true := by
            rw [← hrunsplit]
            exact hrunmem
          have hlrev : (c :: t0).reverse =
              ((c :: t0).dropWhile (fun x => !isSpacePy x)).reverse ++
                ((c :: t0).takeWhile (fun x => !isSpacePy x)).reverse := by
            rw [← List.reverse_append, hsplit]
          cases hrev : ((c :: t0).dropWhile (fun x => !isSpacePy x)).reverse with
          | nil =>
            rw [List.reverse_eq_nil_iff] at hrev
            rw [hrev] at hr0
            exact List.noConfusion hr0
          | cons e rr =>
            have he : isSpacePy e = false := by
              apply ht e (rr ++ ((c :: t0).takeWhile (fun x => !isSpacePy x)).reverse)
              rw [hlrev, hrev, List.cons_append]
            have hemem : e ∈ (c :: t0).dropWhile (fun x => !isSpacePy x) := by
              rw [← List.mem_reverse, hrev]
              simp
            rw [hrws e hemem] at he
            exact Bool.noConfusion he
        | cons e t2 =>
          have he : isSpacePy e = false :=
            dropWhile_head_not isSpacePy _ e t2 hr2
          -- length bookkeeping for the induction hypothesis
          have hlen1 : ((c :: t0).takeWhile (fun x => !isSpacePy x)).length +
              ((c :: t0).dropWhile (fun x => !isSpacePy x)).length = (c :: t0).length := by
            rw [← List.length_append, hsplit]
          have hlen2 : (((c :: t0).dropWhile (fun x => !isSpacePy x)).takeWhile isSpacePy).length +
              (e :: t2).length = ((c :: t0).dropWhile (fun x => !isSpacePy x)).length := by
            rw [← hr2, ← List.length_append, hrunsplit]
          have hwpos : 0 < ((c :: t0).takeWhile (fun x => !isSpacePy x)).length :=
            List.length_pos.mpr hwne
          have hrunpos : 0 <
              (((c :: t0).dropWhile (fun x => !isSpacePy x)).takeWhile isSpacePy).length :=
            List.length_pos.mpr hrunne
          have hlen : (e :: t2).length ≤ n := by
            simp only [List.length_cons] at hl hlen1 hlen2 ⊢
            omega
          -- the trailing condition passes to the tail
          have hrev2 : (c :: t0).reverse = (e :: t2).reverse ++
              ((((c :: t0).dropWhile (fun x => !isSpacePy x)).takeWhile isSpacePy).reverse ++
                ((c :: t0).takeWhile (fun x => !isSpacePy x)).reverse) := by
            rw [← List.reverse_append, ← List.reverse_append]
            rw [List.append_assoc, ← hr2, hrunsplit, hsplit]
          have ht2 : ∀ x t3, (e :: t2).reverse = x :: t3 → isSpacePy x = false := by
            intro x t3 hx
            apply ht x (t3 ++
              ((((c :: t0).dropWhile (fun x => !isSpacePy x)).takeWhile isSpacePy).reverse ++
                ((c :: t0).takeWhile (fun x => !isSpacePy x)).reverse))
            rw [hrev2, hx, List.cons_append]
          have hh2 : ∀ x t3, (e :: t2) = x :: t3 → isSpacePy x = false := by
            intro x t3 hx
            cases hx
            exact he
          have hsub2 : subWs (e :: t2) = joinWords (wordsOf (e :: t2)) :=
            ih (e :: t2) hlen hh2 ht2
          -- run decomposition for wordsOf
          cases hrun : ((c :: t0).dropWhile (fun x => !isSpacePy x)).takeWhile isSpacePy with
          | nil => exact absurd hrun hrunne
          | cons d0 run2 =>
            have hd0 : isSpacePy d0 = true := by
              apply hrunmem
              rw [hrun]
              simp
            have hrun2mem : ∀ x ∈ run2, isSpacePy x = true := by
              intro x hx
              apply hrunmem
              rw [hrun]
              simp [hx]
            -- the two sides
            have hldecomp : c :: t0 = (c :: t0).takeWhile (fun x => !isSpacePy x) ++
                ((d0 :: run2) ++ (e :: t2)) := by
              rw [← hrun, ← hr2, hrunsplit, hsplit]
            have hws : subWs (c :: t0) =
                (c :: t0).takeWhile (fun x => !isSpacePy x) ++ (' ' :: subWs (e :: t2)) := by
              conv_lhs => rw [hldecomp]
              rw [subWs_word _ _ hwmem]
              congr 1
              exact subWs_run_cons (d0 :: run2) e t2
                (by intro x hx; rcases List.mem_cons.mp hx with h | h
                    · subst h; exact hd0
                    · exact hrun2mem x h)
                (by simp) he
            have hwo : wordsOf (c :: t0) =
                (c :: t0).takeWhile (fun x => !isSpacePy x) :: wordsOf (e :: t2) := by
              conv_lhs => rw [hldecomp]
              rw [List.cons_append]
              rw [wordsOf_word_cons _ d0 (run2 ++ e :: t2) hwmem hwne hd0]
              congr 1
              have : d0 :: (run2 ++ e :: t2) = (d0 :: run2) ++ (e :: t2) := by simp
              rw [this]
              exact wordsOf_run (d0 :: run2) (e :: t2)
                (by intro x hx; rcases List.mem_cons.mp hx with h | h
                    · subst h; exact hd0
                    · exact hrun2mem x h)
            rw [hws, hwo, hsub2]
            cases hwo2 : wordsOf (e :: t2) with
            | nil => exact absurd hwo2 (wordsOf_ne_nil e t2 he)
            | cons u us => rw [joinWords]

theorem stripL_decomp (l : List Char) :
    l.dropWhile isSpacePy =
      stripL l ++ ((l.dropWhile isSpacePy).reverse.takeWhile isSpacePy).reverse := by
  unfold stripL
  conv_lhs => rw [← List.reverse_reverse (l.dropWhile isSpacePy)]
  conv_lhs => rw [← List.takeWhile_append_dropWhile isSpacePy (l.dropWhile isSpacePy).reverse]
  rw [List.reverse_append]

theorem subWs_stripL (l : List Char) : subWs (stripL l) = joinWords (wordsOf l) := by
  have hlead : ∀ c t, stripL l = c :: t → isSpacePy c = false := by
    intro c t h
    have hdec := stripL_decomp l
    rw [h, List.cons_append] at hdec
    exact dropWhile_head_not isSpacePy l c _ hdec
  have htrail : ∀ c t, (stripL l).reverse = c :: t → isSpacePy c = false := by
    intro c t h
    unfold stripL at h
    rw [List.reverse_reverse] at h
    exact dropWhile_head_not isSpacePy _ c t h
  have h1 : subWs (stripL l) = joinWords (wordsOf (stripL l)) :=
    subWs_eq_joinWords_stripped (stripL l).length (stripL l) le_rfl hlead htrail
  have h2 : wordsOf (stripL l) = wordsOf l := by
    have ha : wordsOf l = wordsOf (l.dropWhile isSpacePy) := by
      conv_lhs => rw [← List.takeWhile_append_dropWhile isSpacePy l]
      exact wordsOf_run _ _ (fun x hx => List.mem_takeWhile_imp hx)
    have hb : wordsOf (l.dropWhile isSpacePy) = wordsOf (stripL l) := by
      rw [stripL_decomp l]
      apply wordsOf_append_run
      intro x hx
      rw [List.mem_reverse] at hx
      exact List.mem_takeWhile_imp hx
    rw [ha, hb]
  rw [h1, h2]

theorem clean_text_eq (s : String) :
    clean_text s = String.mk (replaceSpecial (joinWords (wordsOf s.data))) := by
  unfold clean_text
  by_cases hs : s = ""
  · subst hs
    rfl
  · rw [if_neg hs, subWs_stripL]

theorem replaceSpecial_of_allowed (m : List Char) (hm : ∀ c ∈ m, allowedPy c = true) :
    replaceSpecial m = m := by
  unfold replaceSpecial
  rw [List.map_congr_left (fun c hc => by rw [if_pos (hm c hc)])]
  exact List.map_id m

theorem mem_replaceSpecial_allowed (m : List Char) :
    ∀ c ∈ replaceSpecial m, allowedPy c = true := by
  intro c hc
  unfold replaceSpecial at hc
  rw [List.mem_map] at hc
  obtain ⟨a, _, ha⟩ := hc
  by_cases h : allowedPy a
  · rw [if_pos h] at ha
    rw [← ha]
    exact h
  · rw [if_neg h] at ha
    rw [← ha]
    decide

theorem mem_joinWords (l : List (List Char)) :
    ∀ c ∈ joinWords l, (∃ w ∈ l, c ∈ w) ∨ c = ' ' := by
  induction l with
  | nil => intro c hc; exact absurd hc (by simp [joinWords])
  | cons w l2 ih =>
    cases l2 with
    | nil =>
      intro c hc
      rw [show joinWords [w] = w from rfl] at hc
      exact Or.inl ⟨w, by simp, hc⟩
    | cons w2 l3 =>
      intro c hc
      rw [joinWords, List.mem_append] at hc
      rcases hc with h | h
      · exact Or.inl ⟨w, by simp, h⟩
      · rcases List.mem_cons.mp h with h2 | h2
        · exact Or.inr h2
        · rcases ih c h2 with ⟨u, hu, hcu⟩ | h3
          · exact Or.inl ⟨u, by simp [hu], hcu⟩
          · exact Or.inr h3

theorem joinWords_wordsOf_chars (x : List Char) (hx : ∀ c ∈ x, allowedPy c = true) :
    ∀ c ∈ joinWords (wordsOf x), allowedPy c = true := by
  intro c hc
  rcases mem_joinWords (wordsOf x) c hc with ⟨w, hw, hcw⟩ | h
  · exact hx c ((mem_wordsOf x w hw).2 c hcw).2
  · rw [h]
    decide

theorem clean_text_chars (s : String) : ∀ c ∈ (clean_text s).data, allowedPy c = true := by
  intro c hc
  rw [clean_text_eq] at hc
  exact mem_replaceSpecial_allowed _ c hc

theorem clean_text_of_allowed (z : String) (hz : ∀ c ∈ z.data, allowedPy c = true) :
    clean_text z = String.mk (joinWords (wordsOf z.data)) := by
  rw [clean_text_eq, replaceSpecial_of_allowed _ (joinWords_wordsOf_chars z.data hz)]

theorem clean_text_clean_text (s : String) :
    clean_text (clean_text s) = String.mk (joinWords (wordsOf (clean_text s).data)) :=
  clean_text_of_allowed (clean_text s) (clean_text_chars s)

/-- C5, counterexample.  clean_text is not idempotent: the characters that
the second regex sub replaces become spaces after whitespace runs were
already collapsed, so two disallowed characters leave a double space that a
second application collapses and a trailing one leaves a space that a
second application trims. -/
theorem C5_not_idempotent :
    clean_text "a@@b" = "a  b" ∧ clean_text (clean_text "a@@b") = "a b" ∧
      clean_text (clean_text "a@@b") ≠ clean_text "a@@b" := by
  refine ⟨by decide, by decide, by decide⟩

/-- C5, amended.  clean_text is idempotent from the second application on
(composing it three times equals composing it twice, for every string),
and it is idempotent on every string none of whose characters is replaced
by the special-character sub; full idempotence fails only on inputs with
replaced characters. -/
theorem C5_idem_from_second (s : String) :
    clean_text (clean_text (clean_text s)) = clean_text (clean_text s) ∧
      ((∀ c ∈ s.data, allowedPy c = true) → clean_text (clean_text s) = clean_text s) := by
  constructor
  · rw [clean_text_clean_text s]
    rw [clean_text_of_allowed _ (by
      intro c hc
      rw [show (String.mk (joinWords (wordsOf (clean_text s).data))).data =
        joinWords (wordsOf (clean_text s).data) from rfl] at hc
      exact joinWords_wordsOf_chars _ (clean_text_chars s) c hc)]
    rw [show (String.mk (joinWords (wordsOf (clean_text s).data))).data =
      joinWords (wordsOf (clean_text s).data) from rfl]
    rw [wordsOf_idem]
  · intro hs
    rw [clean_text_clean_text s, clean_text_of_allowed s hs]
    rw [show (String.mk (joinWords (wordsOf s.data))).data =
      joinWords (wordsOf s.data) from rfl]
    rw [wordsOf_idem]

/-- C5, witness for the amended theorem at concrete strings: the triple
application agrees with the double one on a string with replaced
characters, and idempotence holds outright on an allowed-only string. -/
theorem C5_idem_from_second_witness :
    clean_text (clean_text (clean_text "a@@b")) = clean_text (clean_text "a@@b") ∧
      clean_text (clean_text "a  b!") = clean_text "a  b!" :=
  ⟨(C5_idem_from_second "a@@b").1, (C5_idem_from_second "a  b!").2 (by decide)⟩

theorem allowedPy_eq_claim_or_underscore (c : Char) :
    allowedPy c = (claimAllowed c || c == '_') := by
  cases ha : c.isAlphanum <;> cases hu : (c == '_') <;>
    simp [allowedPy, isWordPy, claimAllowed, ha, hu, Bool.or_comm, Bool.or_assoc,
      Bool.or_left_comm]

/-- C6, counterexample.  The claimed allowed set has no underscore, but the
source regex class is built on the word class of the regex language, which
keeps underscores: on the input consisting of one underscore the code
returns the underscore unchanged while the claimed normalizer returns one
space. -/
theorem C6_underscore_counterexample :
    clean_text "_" = "_" ∧ normalizeClaim "_" = " " ∧
      clean_text "_" ≠ normalizeClaim "_" := by
  refine ⟨by decide, by decide, by decide⟩

/-- C6, amended.  For every input (the null input included), clean_text
equals the normalizer the claim describes once the underscore joins the
allowed set: collapse every whitespace run to one space, trim the ends,
then replace every character outside the set of alphanumerics, underscore,
whitespace and - . , ; : ! ? with one space; empty and null inputs give
the empty string, and the function is total, so no input raises. -/
theorem C6_normalizer_refines (s : Option String) :
    clean_textOpt s = normalizeAmended s ∧ clean_textOpt none = "" ∧ clean_text "" = "" := by
  refine ⟨?_, rfl, rfl⟩
  cases s with
  | none => rfl
  | some z =>
    show clean_text z = normalizeAmended (some z)
    rw [clean_text_eq]
    unfold normalizeAmended collapseAndTrim replaceSpecial
    congr 1
    apply List.map_congr_left
    intro c _
    rw [allowedPy_eq_claim_or_underscore]

/-- C6, witness: the refinement at one concrete messy input. -/
theorem C6_normalizer_refines_witness :
    clean_textOpt (some "  Hi _there!\n\tok@ ") =
      normalizeAmended (some "  Hi _there!\n\tok@ ") :=
  (C6_normalizer_refines (some "  Hi _there!\n\tok@ ")).1
